import Mathlib

/-!
Shallow embedding of the `rnd` command-line utility (`src/main.rs`) and proofs about
the properties its specification states.  Randomness is injected: every RNG draw is a
parameter (a stream of naturals or rationals), and the iteration order of the
`HashMap` used by `print_selections` is a parameter constrained to be a permutation
of the distinct outcomes.  `f64` weights and bounds are modelled as exact rationals;
the embedded code only compares them, so no rounding behaviour is involved.
-/

namespace Rnd

/-- `const AMOUNT_THRESHOLD: usize = 10` from `main.rs`. -/
def AMOUNT_THRESHOLD : Nat := 10

/-- Fuel-driven recursion computing the distinct elements of a list in
first-encounter order; any fuel at least the list length gives the full answer. -/
def distinctAux : Nat → List String → List String
  | _, [] => []
  | 0, _ :: _ => []
  | fuel + 1, a :: l => a :: distinctAux fuel (l.filter (fun b => decide (b ≠ a)))

/-- Distinct elements of a list, in first-encounter order. -/
def distinctInOrder (l : List String) : List String :=
  distinctAux l.length l

/-- Element swap on a list, as performed by `slice::swap`; out-of-range indices leave
the list unchanged (the shuffle loop only ever swaps in range). -/
def swapL {α : Type} (l : List α) (i j : Nat) : List α :=
  match l[i]?, l[j]? with
  | some a, some b => (l.set i b).set j a
  | _, _ => l

/-- The Fisher-Yates loop of rand 0.8 `SliceRandom::shuffle` (external collaborator of
`shuffle_cmd` and of weighted choice without replacement):
`for i in (1..len).rev() { swap(i, gen_range(0..=i)) }`.  The bounded draw
`gen_range(0..=i)` is modelled as `r i % (i + 1)` over an injected stream `r`. -/
def fyLoop {α : Type} (r : Nat → Nat) (l : List α) : Nat → List α
  | 0 => l
  | i + 1 => fyLoop r (swapL l (i + 1) (r (i + 1) % (i + 2))) i

/-- The list produced by `items.shuffle(&mut rng)` in `shuffle_cmd`. -/
def shuffleList (items : List String) (r : Nat → Nat) : List String :=
  fyLoop r items (items.length - 1)

/-- `shuffle_cmd` from `main.rs`: shuffle, then `println!("{}", items.iter().join(", "))`.
The result is the full standard output text, newline included. -/
def shuffle_cmd (items : List String) (r : Nat → Nat) : String :=
  String.intercalate ", " (shuffleList items r) ++ "\n"

/-- The loop of rand 0.8 `WeightedIndex::new`: each iteration rejects a negative
weight, pushes the running total, then adds the weight; an all-zero total at the end
is a construction error. -/
def wiLoop : List ℚ → ℚ → List ℚ → Except String (List ℚ × ℚ)
  | [], total, acc => if total = 0 then .error "AllWeightsZero" else .ok (acc, total)
  | w :: rest, total, acc =>
    if w < 0 then .error "InvalidWeight" else wiLoop rest (total + w) (acc ++ [total])

/-- rand 0.8 `WeightedIndex::new` (external collaborator of `choose_with_repetition`):
errors on an empty weight list, a negative weight, or an all-zero total; on success
returns the cumulative-weight table (the proper prefix totals) and the grand total. -/
def weightedIndexNew (ws : List ℚ) : Except String (List ℚ × ℚ) :=
  match ws with
  | [] => .error "NoItem"
  | w :: rest => if w < 0 then .error "InvalidWeight" else wiLoop rest w []

/-- rand 0.8 `WeightedIndex::sample`: `partition_point(|w| w <= &chosen_weight)` over
the (monotone) cumulative-weight table, the uniform draw being injected as `u`. -/
def wSample (cum : List ℚ) (u : ℚ) : Nat :=
  (cum.takeWhile (fun w => decide (w ≤ u))).length

/-- One entry per key of `order` (the `HashMap` iteration order), paired with the
occurrence count of that key in the drawn sequence `sel`. -/
def countPairs (sel order : List String) : List (String × Nat) :=
  order.map (fun s => (s, sel.count s))

/-- The `sorted_by(|(_, a), (_, b)| b.cmp(a))` step of `print_selections`: a stable
sort of the count-map entries by descending count. -/
def sortedCountPairs (sel order : List String) : List (String × Nat) :=
  (countPairs sel order).mergeSort (fun x y => decide (y.2 ≤ x.2))

/-- The `"label: count"` lines of the count table, in print order. -/
def tableLines (sel order : List String) : List String :=
  (sortedCountPairs sel order).map (fun p => p.1 ++ ": " ++ toString p.2)

/-- The individual-outcome text printed in the `count && all` branch of
`print_selections`; the separator test compares the index with `amount - 1`, not with
the actual sequence length, exactly as in the source. -/
def allWithCount (sel : List String) (amount : Nat) : String :=
  String.join (sel.enum.map (fun p => p.2 ++ if p.1 ≠ amount - 1 then ", " else ""))

/-- `print_selections` from `main.rs`, as the pair (individual-outcomes text,
count-table lines); `none` means the corresponding block is not printed.  The
`HashMap` iteration order is injected as `order`. -/
def print_selections (sel : List String) (count all : Bool) (amount : Nat)
    (order : List String) : Option String × Option (List String) :=
  if count then
    ((if all then some (allWithCount sel amount) else none), some (tableLines sel order))
  else
    (some (String.intercalate ", " sel), none)

/-- Look up every index in turn; `none` models the out-of-bounds panic of
`items[idx]`. -/
def indexAll (items : List String) : List Nat → Option (List String)
  | [] => some []
  | i :: is =>
    match items[i]?, indexAll items is with
    | some s, some l => some (s :: l)
    | _, _ => none

/-- `choose_with_repetition` from `main.rs`; the per-draw uniform values behind
`dist.sample` are injected as `us`, and the `HashMap` order as `order`.  The
out-of-bounds panic of `items[dist.sample(..)]` is modelled as an error result. -/
def choose_with_repetition (items : List String) (weights : List ℚ) (amount : Nat)
    (count all : Bool) (us : Nat → ℚ) (order : List String) :
    Except String (Option String × Option (List String)) :=
  match weightedIndexNew weights with
  | .error e => .error e
  | .ok (cum, _) =>
    match indexAll items ((List.range amount).map (fun k => wSample cum (us k))) with
    | none => .error "index out of bounds"
    | some sel => .ok (print_selections sel count all amount order)

/-- rand 0.8 `choose_multiple_weighted` (external collaborator): errors on a negative
weight or when `amount` exceeds the number of candidates; otherwise yields `amount`
distinct candidates, modelled as a prefix of an `r`-driven permutation. -/
def choose_multiple_weighted (choices : List (String × ℚ)) (amount : Nat)
    (r : Nat → Nat) : Except String (List String) :=
  if choices.any (fun c => decide (c.2 < 0)) then .error "InvalidWeight"
  else if decide (choices.length < amount) then .error "TooMany"
  else .ok (((fyLoop r choices (choices.length - 1)).take amount).map Prod.fst)

/-- `choose_without_repetition` from `main.rs`: zips items with weights (silently
truncating to the shorter of the two lists, as `Iterator::zip` does) before weighted
sampling without replacement. -/
def choose_without_repetition (items : List String) (weights : List ℚ) (amount : Nat)
    (count all : Bool) (r : Nat → Nat) (order : List String) :
    Except String (Option String × Option (List String)) :=
  match choose_multiple_weighted (items.zip weights) amount r with
  | .error e => .error e
  | .ok sel => .ok (print_selections sel count all amount order)

/-- The empty-weights default of the `Choose` arm: `weights = [1.0].repeat(items.len())`. -/
def fillWeights (items : List String) (weights : List ℚ) : List ℚ :=
  if weights.isEmpty then List.replicate items.length 1 else weights

/-- `let all = all || amount <= AMOUNT_THRESHOLD` (lines 367, 385, 432 of `main.rs`). -/
def resolveAll (all : Bool) (amount : Nat) : Bool :=
  all || decide (amount ≤ AMOUNT_THRESHOLD)

/-- `let count = count || !all`, with `all` already resolved (lines 368, 386, 433). -/
def resolveCount (count all : Bool) (amount : Nat) : Bool :=
  count || !(resolveAll all amount)

/-- The `Command::Choose` arm of `run_cli`. -/
def run_choose (items : List String) (weights : List ℚ) (amount : Nat)
    (count all repetition : Bool) (r : Nat → Nat) (us : Nat → ℚ)
    (order : List String) : Except String (Option String × Option (List String)) :=
  if repetition || decide (amount > items.length) then
    choose_with_repetition items (fillWeights items weights) amount
      (resolveCount count all amount) (resolveAll all amount) us order
  else
    choose_without_repetition items (fillWeights items weights) amount
      (resolveCount count all amount) (resolveAll all amount) r order

/-- The `Command::Coin` arm of `run_cli`. -/
def run_coin (amount : Nat) (count all : Bool) (us : Nat → ℚ) (order : List String) :
    Except String (Option String × Option (List String)) :=
  choose_with_repetition ["heads", "tails"] [1, 1] amount
    (resolveCount count all amount) (resolveAll all amount) us order

/-- `die_cmd` from `main.rs`; each draw of `Uniform::new_inclusive(1, sides)` is
modelled as `rolls k % sides + 1`, and rolls are rendered the way `usize` displays. -/
def die_cmd (sides times : Nat) (count all : Bool) (rolls : Nat → Nat)
    (order : List String) : Except String (Option String × Option (List String)) :=
  if sides < 1 then .error "number of sides must be at least 1"
  else .ok (print_selections
    ((List.range times).map (fun k => toString (rolls k % sides + 1)))
    count all times order)

/-- The `Command::Die` arm of `run_cli`. -/
def run_die (sides times : Nat) (count all : Bool) (rolls : Nat → Nat)
    (order : List String) : Except String (Option String × Option (List String)) :=
  die_cmd sides times (resolveCount count all times) (resolveAll all times) rolls order

/-- The `Num` integer/float union of `main.rs`; `f64` values are modelled as exact
rationals, and `i128 as f64` preserves sign, which is all the embedded code tests. -/
inductive Num where
  | int (i : Int)
  | float (q : ℚ)
deriving DecidableEq

/-- `Num::as_float`. -/
def Num.asFloat : Num → ℚ
  | .int i => (i : ℚ)
  | .float q => q

/-- The single-positional-bound reinterpretation of the `Command::Random` arm of
`run_cli` (lines 404-411): with only `start` supplied, a negative value keeps `start`
as the lower bound with upper bound `0`, a non-negative value becomes the upper bound
with lower bound `0`. -/
def resolveBounds : Option Num → Option Num → Option Num × Option Num
  | some s, none =>
    if s.asFloat < 0 then (some s, some (Num.int 0)) else (some (Num.int 0), some s)
  | s, e => (s, e)

/-- `random_cmd` from `main.rs`, generic over the ordered bound type as the source is
over `PartialOrd + SampleUniform`; the drawn value is injected as `rand` and is
returned together with the precision on success, while the error branch prints no
number at all. -/
def random_cmd {T : Type} [LinearOrder T] (lower upper : T) (inclusive : Bool)
    (precision : Nat) (rand : T) : Except String (T × Nat) :=
  if lower ≥ upper then .error "lower bound should be smaller than upper"
  else .ok (rand, precision)

/-- The `Command::Random` arm of `run_cli`: bound reinterpretation, defaulting of
missing bounds to `0.0` and `1.0`, and int/float promotion before `random_cmd`. -/
def run_random (start end_ : Option Num) (inclusive : Bool) (precision : Nat)
    (randI : Int) (randF : ℚ) : Except String (Num × Nat) :=
  match (resolveBounds start end_).1.getD (Num.float 0),
        (resolveBounds start end_).2.getD (Num.float 1) with
  | .int s, .int e =>
    (random_cmd s e inclusive precision randI).map (fun q => (Num.int q.1, q.2))
  | .int s, .float e =>
    (random_cmd (s : ℚ) e inclusive precision randF).map (fun q => (Num.float q.1, q.2))
  | .float s, .int e =>
    (random_cmd s (e : ℚ) inclusive precision randF).map (fun q => (Num.float q.1, q.2))
  | .float s, .float e =>
    (random_cmd s e inclusive precision randF).map (fun q => (Num.float q.1, q.2))

/-- The arguments of the `Random` command. -/
structure RandomArgs where
  inclusive : Bool
  precision : Nat
  start : Option Num
  end_ : Option Num
deriving DecidableEq

/-- `Default for Command` in `main.rs`: the command run when no subcommand is given. -/
def defaultCommand : RandomArgs :=
  ⟨false, 2, some (Num.float 0), some (Num.float 1)⟩

/-- `default_value_t = 6` on `--precision` of the explicitly named `random`
subcommand. -/
def randomPrecisionDefault : Nat := 6

/-- A possible iteration order of the `HashMap` of `print_selections`: some
permutation of the distinct outcomes of the drawn sequence. -/
def validOrder (order sel : List String) : Prop :=
  order.Perm (distinctInOrder sel)

instance (order sel : List String) : Decidable (validOrder order sel) :=
  inferInstanceAs (Decidable (order.Perm (distinctInOrder sel)))

/-- Constant-zero index stream, used to instantiate injected randomness. -/
def rz : Nat → Nat := fun _ => 0

/-- Constant-zero rational stream, used to instantiate injected randomness. -/
def qz : Nat → ℚ := fun _ => 0

unseal List.merge List.mergeSort Rat.add

/-- Putting an element back at the position it was read from, while consing the old
occupant, permutes a cons of the original list. -/
theorem cons_set_perm {α : Type} (t : List α) (k : Nat) (a b : α)
    (h : t[k]? = some b) : (b :: t.set k a).Perm (a :: t) := by
  induction t generalizing k with
  | nil => simp at h
  | cons x s ih =>
    cases k with
    | zero =>
      simp only [List.getElem?_cons_zero, Option.some.injEq] at h
      subst h
      simp only [List.set_cons_zero]
      exact List.Perm.swap a x s
    | succ k =>
      simp only [List.getElem?_cons_succ] at h
      simp only [List.set_cons_succ]
      exact (List.Perm.swap x b _).trans (((ih k h).cons x).trans (List.Perm.swap a x s))

/-- Swapping two in-range elements of a list yields a permutation of it. -/
theorem set_set_perm {α : Type} : ∀ (l : List α) (i j : Nat) (a b : α),
    l[i]? = some a → l[j]? = some b → ((l.set i b).set j a).Perm l
  | [], _, _, _, _, h, _ => by simp at h
  | x :: t, 0, 0, a, b, h1, h2 => by
    simp only [List.getElem?_cons_zero, Option.some.injEq] at h1 h2
    subst h1; subst h2
    simp only [List.set_cons_zero]
    exact List.Perm.refl _
  | x :: t, 0, j + 1, a, b, h1, h2 => by
    simp only [List.getElem?_cons_zero, Option.some.injEq] at h1
    simp only [List.getElem?_cons_succ] at h2
    subst h1
    simp only [List.set_cons_zero, List.set_cons_succ]
    exact cons_set_perm t j x b h2
  | x :: t, i + 1, 0, a, b, h1, h2 => by
    simp only [List.getElem?_cons_succ] at h1
    simp only [List.getElem?_cons_zero, Option.some.injEq] at h2
    subst h2
    simp only [List.set_cons_zero, List.set_cons_succ]
    exact cons_set_perm t i x a h1
  | x :: t, i + 1, j + 1, a, b, h1, h2 => by
    simp only [List.getElem?_cons_succ] at h1 h2
    simp only [List.set_cons_succ]
    exact (set_set_perm t i j a b h1 h2).cons x

/-- One swap step of the shuffle loop permutes the list. -/
theorem swapL_perm {α : Type} (l : List α) (i j : Nat) : (swapL l i j).Perm l := by
  unfold swapL
  split
  · next a b h1 h2 => exact set_set_perm l i j a b h1 h2
  · exact List.Perm.refl l

/-- The whole Fisher-Yates loop permutes the list, whatever the random stream. -/
theorem fyLoop_perm {α : Type} (r : Nat → Nat) :
    ∀ (n : Nat) (l : List α), (fyLoop r l n).Perm l := by
  intro n
  induction n with
  | zero => intro l; exact List.Perm.refl l
  | succ i ih =>
    intro l
    rw [fyLoop]
    exact (ih _).trans (swapL_perm _ _ _)

/-- Claim C7: for every input list of N strings and every random stream, the shuffle
subcommand outputs a permutation of that list: the sequence it prints has the same
multiset of elements as the input and length N. -/
theorem shuffle_is_permutation (items : List String) (r : Nat → Nat) :
    (shuffleList items r).Perm items ∧ (shuffleList items r).length = items.length :=
  ⟨fyLoop_perm r _ items, (fyLoop_perm r _ items).length_eq⟩

/-- Claim C8 as stated is false at the empty input list: `shuffle_cmd` still writes a
newline, so its standard output is not empty. -/
theorem shuffle_empty_counterexample : shuffle_cmd [] rz ≠ "" := by decide

/-- Claim C8 (amended): on the empty input list the shuffle subcommand raises no error
and prints no items; its standard output is exactly one empty line, a single
newline. -/
theorem shuffle_empty_output (r : Nat → Nat) : shuffle_cmd [] r = "\n" := rfl

/-- Claim C3 as stated is false: with the single positional bound `-5`, `run_cli`
keeps `-5` as the lower bound and makes `0` the upper bound, instead of using the
supplied value as the upper bound. -/
theorem random_single_bound_counterexample :
    resolveBounds (some (Num.int (-5))) none ≠ (some (Num.int 0), some (Num.int (-5))) := by
  decide

/-- Claim C3 (amended): with exactly one positional bound supplied, a non-negative
value becomes the upper bound with the lower bound defaulted to 0, while a negative
value stays the lower bound with the upper bound defaulted to 0. -/
theorem random_single_bound (v : Num) :
    (0 ≤ v.asFloat → resolveBounds (some v) none = (some (Num.int 0), some v))
    ∧ (v.asFloat < 0 → resolveBounds (some v) none = (some v, some (Num.int 0))) := by
  constructor
  · intro h
    simp only [resolveBounds]
    rw [if_neg (not_lt.mpr h)]
  · intro h
    simp only [resolveBounds]
    rw [if_pos h]

/-- Witness for C3's amended claim at the bounds `7` and `-5`. -/
theorem random_single_bound_witness :
    resolveBounds (some (Num.int 7)) none = (some (Num.int 0), some (Num.int 7))
    ∧ resolveBounds (some (Num.int (-5))) none = (some (Num.int (-5)), some (Num.int 0)) :=
  ⟨(random_single_bound (Num.int 7)).1 (by decide),
   (random_single_bound (Num.int (-5))).2 (by decide)⟩

/-- Claim C4: with no explicit flags, an amount at or below the threshold 10 prints
the individual outcomes and no count table, an amount above 10 prints only the count
table, and the explicit `all` flag always makes the individual outcomes print. -/
theorem display_threshold (amount : Nat) (sel order : List String) :
    (amount ≤ AMOUNT_THRESHOLD →
      print_selections sel (resolveCount false false amount) (resolveAll false amount)
        amount order = (some (String.intercalate ", " sel), none))
    ∧ (AMOUNT_THRESHOLD < amount →
      print_selections sel (resolveCount false false amount) (resolveAll false amount)
        amount order = (none, some (tableLines sel order)))
    ∧ print_selections sel (resolveCount false true amount) (resolveAll true amount)
        amount order = (some (String.intercalate ", " sel), none) := by
  refine ⟨fun h => ?_, fun h => ?_, ?_⟩
  · simp [print_selections, resolveCount, resolveAll, h]
  · have hn : ¬ amount ≤ AMOUNT_THRESHOLD := by omega
    simp [print_selections, resolveCount, resolveAll, hn]
  · simp [print_selections, resolveCount, resolveAll]

/-- Witness for C4 at amounts 3 and 11. -/
theorem display_threshold_witness :
    print_selections ["h"] (resolveCount false false 3) (resolveAll false 3) 3 ["h"]
      = (some (String.intercalate ", " ["h"]), none)
    ∧ print_selections ["h"] (resolveCount false false 11) (resolveAll false 11) 11 ["h"]
      = (none, some (tableLines ["h"] ["h"]))
    ∧ print_selections ["h"] (resolveCount false true 11) (resolveAll true 11) 11 ["h"]
      = (some (String.intercalate ", " ["h"]), none) :=
  ⟨(display_threshold 3 ["h"] ["h"]).1 (by decide),
   (display_threshold 11 ["h"] ["h"]).2.1 (by decide),
   (display_threshold 11 ["h"] ["h"]).2.2⟩

/-- Claim C5: `random_cmd` errors with exactly the message
`lower bound should be smaller than upper` whenever lower is at least upper, printing
no number, and never raises that error when lower is strictly below upper. -/
theorem random_bounds_check {T : Type} [LinearOrder T] (lower upper : T)
    (inclusive : Bool) (precision : Nat) (rand : T) :
    (lower ≥ upper →
      random_cmd lower upper inclusive precision rand
        = .error "lower bound should be smaller than upper")
    ∧ (lower < upper →
      random_cmd lower upper inclusive precision rand = .ok (rand, precision)) := by
  constructor
  · intro h
    simp [random_cmd, h]
  · intro h
    simp [random_cmd, not_le.mpr h]

/-- Witness for C5 at the integer bound pairs (5, 3) and (1, 2). -/
theorem random_bounds_check_witness :
    random_cmd (5 : Int) 3 false 6 0 = .error "lower bound should be smaller than upper"
    ∧ random_cmd (1 : Int) 2 false 6 1 = .ok (1, 6) :=
  ⟨(random_bounds_check (5 : Int) 3 false 6 0).1 (by decide),
   (random_bounds_check (1 : Int) 2 false 6 1).2 (by decide)⟩

/-- Claim C6: a draw count above the number of items forces the with-repetition
sampler even without the repetition flag, and with the flag absent and the count at
most the number of items the without-repetition sampler runs. -/
theorem choose_repetition_dispatch (items : List String) (weights : List ℚ)
    (amount : Nat) (count all repetition : Bool) (r : Nat → Nat) (us : Nat → ℚ)
    (order : List String) :
    (items.length < amount →
      run_choose items weights amount count all repetition r us order
        = choose_with_repetition items (fillWeights items weights) amount
            (resolveCount count all amount) (resolveAll all amount) us order)
    ∧ (repetition = false → amount ≤ items.length →
      run_choose items weights amount count all repetition r us order
        = choose_without_repetition items (fillWeights items weights) amount
            (resolveCount count all amount) (resolveAll all amount) r order) := by
  constructor
  · intro h
    simp [run_choose, h]
  · intro hrep h
    subst hrep
    have hn : ¬ items.length < amount := by omega
    simp [run_choose, hn]

/-- Witness for C6: two items with draw counts 3 and 1. -/
theorem choose_repetition_dispatch_witness :
    run_choose ["a", "b"] [1, 1] 3 false false false rz qz ["a"]
      = choose_with_repetition ["a", "b"] (fillWeights ["a", "b"] [1, 1]) 3
          (resolveCount false false 3) (resolveAll false 3) qz ["a"]
    ∧ run_choose ["a", "b"] [1, 1] 1 false false false rz qz ["a"]
      = choose_without_repetition ["a", "b"] (fillWeights ["a", "b"] [1, 1]) 1
          (resolveCount false false 1) (resolveAll false 1) rz ["a"] :=
  ⟨(choose_repetition_dispatch ["a", "b"] [1, 1] 3 false false false rz qz ["a"]).1
      (by decide),
   (choose_repetition_dispatch ["a", "b"] [1, 1] 1 false false false rz qz ["a"]).2
      rfl (by decide)⟩

/-- Claim C10: with no subcommand, the program runs the `random` command with lower
bound 0.0, upper bound 1.0 excluded, and precision 2, not the precision default 6
of the explicitly named `random` subcommand. -/
theorem default_command_random (randI : Int) (randF : ℚ) :
    run_random defaultCommand.start defaultCommand.end_ defaultCommand.inclusive
        defaultCommand.precision randI randF
      = (random_cmd (0 : ℚ) 1 false 2 randF).map (fun q => (Num.float q.1, q.2))
    ∧ defaultCommand.precision = 2 ∧ defaultCommand.inclusive = false
    ∧ randomPrecisionDefault = 6 :=
  ⟨rfl, rfl, rfl, rfl⟩

/-- Claim C1 is contradicted by the code: `run_cli` never compares the lengths of a
non-empty weights list and the items list.  With items `a b`, the single weight `1`
and amount 1, the without-repetition path silently zips the lists down to one pair
and prints `a` with no error; with one item, the three weights `0 0 1` and the
repetition flag, the sampled index 2 runs off the end of the items list (the panic in
`items[dist.sample(..)]`), which is no usage error either. -/
theorem choose_mismatched_weights_eval :
    run_choose ["a", "b"] [1] 1 false false false rz qz ["a"]
      = .ok (some "a", none)
    ∧ run_choose ["a"] [0, 0, 1] 1 false false true rz qz ["a"]
      = .error "index out of bounds" := by
  constructor
  · rfl
  · rfl

/-- Every element the fuel-driven distinct computation returns comes from the input
list. -/
theorem distinctAux_subset : ∀ (fuel : Nat) (l : List String) (s : String),
    s ∈ distinctAux fuel l → s ∈ l := by
  intro fuel
  induction fuel with
  | zero =>
    intro l s h
    cases l <;> simp [distinctAux] at h
  | succ fuel ih =>
    intro l s h
    cases l with
    | nil => simp [distinctAux] at h
    | cons a t =>
      simp only [distinctAux, List.mem_cons] at h
      rcases h with h | h
      · exact h ▸ List.mem_cons_self a t
      · exact List.mem_cons_of_mem a (List.mem_of_mem_filter (ih _ s h))

/-- With enough fuel, membership in the distinct list agrees with membership in the
input. -/
theorem distinctAux_mem : ∀ (fuel : Nat) (l : List String), l.length ≤ fuel →
    ∀ s, s ∈ distinctAux fuel l ↔ s ∈ l := by
  intro fuel
  induction fuel with
  | zero =>
    intro l hl s
    have : l = [] := List.eq_nil_of_length_eq_zero (Nat.le_zero.mp hl)
    subst this
    simp [distinctAux]
  | succ fuel ih =>
    intro l hl s
    cases l with
    | nil => simp [distinctAux]
    | cons a t =>
      have ht : (t.filter (fun b => decide (b ≠ a))).length ≤ fuel := by
        have h1 := List.length_filter_le (fun b => decide (b ≠ a)) t
        simp only [List.length_cons] at hl
        omega
      simp only [distinctAux, List.mem_cons, ih _ ht s, List.mem_filter,
        decide_eq_true_iff]
      by_cases hsa : s = a <;> simp [hsa]

/-- The distinct list never repeats an element. -/
theorem distinctAux_nodup : ∀ (fuel : Nat) (l : List String),
    (distinctAux fuel l).Nodup := by
  intro fuel
  induction fuel with
  | zero => intro l; cases l <;> simp [distinctAux]
  | succ fuel ih =>
    intro l
    cases l with
    | nil => simp [distinctAux]
    | cons a t =>
      simp only [distinctAux]
      rw [List.nodup_cons]
      refine ⟨fun hmem => ?_, ih _⟩
      have := distinctAux_subset _ _ _ hmem
      simp [List.mem_filter] at this

/-- Claim C2 as stated is false: the count table's tie order follows the `HashMap`
iteration order, which need not be the first-encounter order.  For the outcome
sequence `["a", "b"]`, the order `["b", "a"]` is a possible map order, yet the table
printed under it differs from the table printed under the first-encounter order — so
ties are not listed as first encountered, and two presentations of the same multiset
can print different tables. -/
theorem count_table_counterexample :
    validOrder ["b", "a"] ["a", "b"]
    ∧ tableLines ["a", "b"] ["b", "a"]
        ≠ tableLines ["a", "b"] (distinctInOrder ["a", "b"]) := by
  constructor
  · decide
  · decide

/-- Claim C2 (amended): for every valid `HashMap` iteration order, the printed table
has exactly one `label: count` entry per distinct outcome with its multiset count,
entries are sorted by descending count, and the table depends on the input sequence
only through its multiset once the map iteration order is fixed; tie order follows
the map's (unspecified) iteration order rather than first-encounter order. -/
theorem count_table_spec (sel order : List String) (h : validOrder order sel) :
    (distinctInOrder sel).Nodup
    ∧ (∀ s, s ∈ distinctInOrder sel ↔ s ∈ sel)
    ∧ (sortedCountPairs sel order).Perm
        ((distinctInOrder sel).map (fun s => (s, sel.count s)))
    ∧ (sortedCountPairs sel order).Pairwise (fun x y => y.2 ≤ x.2)
    ∧ tableLines sel order
        = (sortedCountPairs sel order).map (fun p => p.1 ++ ": " ++ toString p.2)
    ∧ ∀ sel', sel'.Perm sel → sortedCountPairs sel' order = sortedCountPairs sel order := by
  refine ⟨distinctAux_nodup _ _, fun s => distinctAux_mem _ _ (le_refl _) s, ?_, ?_, rfl, ?_⟩
  · exact (List.mergeSort_perm _ _).trans (h.map _)
  · have hs := @List.sorted_mergeSort (String × Nat) (fun x y => decide (y.2 ≤ x.2))
      (fun a b c h1 h2 => by simp at h1 h2 ⊢; omega)
      (fun a b => by simp; omega)
      (countPairs sel order)
    exact hs.imp (fun hab => of_decide_eq_true hab)
  · intro sel' hp
    unfold sortedCountPairs countPairs
    congr 1
    exact List.map_congr_left (fun s _ => by rw [hp.count_eq])

/-- Witness for C2's amended claim on the sequence `a a b` with map order `b a`,
including multiset invariance against the reordered sequence `a b a`. -/
theorem count_table_spec_witness :
    (sortedCountPairs ["a", "a", "b"] ["b", "a"]).Pairwise (fun x y => y.2 ≤ x.2)
    ∧ sortedCountPairs ["a", "b", "a"] ["b", "a"]
        = sortedCountPairs ["a", "a", "b"] ["b", "a"] :=
  ⟨(count_table_spec ["a", "a", "b"] ["b", "a"] (by decide)).2.2.2.1,
   (count_table_spec ["a", "a", "b"] ["b", "a"] (by decide)).2.2.2.2.2
     ["a", "b", "a"] (by decide)⟩

/-- When the construction loop succeeds, the cumulative table holds one entry per
weight consumed. -/
theorem wiLoop_ok_length : ∀ (ws : List ℚ) (total : ℚ) (acc cum : List ℚ) (t : ℚ),
    wiLoop ws total acc = .ok (cum, t) → cum.length = acc.length + ws.length := by
  intro ws
  induction ws with
  | nil =>
    intro total acc cum t h
    unfold wiLoop at h
    by_cases h0 : total = 0
    · rw [if_pos h0] at h
      exact absurd h (by simp)
    · rw [if_neg h0] at h
      simp only [Except.ok.injEq, Prod.mk.injEq] at h
      simp [← h.1]
  | cons w rest ih =>
    intro total acc cum t h
    unfold wiLoop at h
    by_cases hw : w < 0
    · rw [if_pos hw] at h
      exact absurd h (by simp)
    · rw [if_neg hw] at h
      have := ih (total + w) (acc ++ [total]) cum t h
      simp at this ⊢
      omega

/-- A successfully constructed `WeightedIndex` over `n` weights has a cumulative
table of length `n - 1`: one entry fewer than there are weights. -/
theorem weightedIndexNew_ok_length (ws cum : List ℚ) (t : ℚ)
    (h : weightedIndexNew ws = .ok (cum, t)) : cum.length + 1 = ws.length := by
  cases ws with
  | nil => exact absurd h (by simp [weightedIndexNew])
  | cons w rest =>
    simp only [weightedIndexNew] at h
    by_cases hw : w < 0
    · rw [if_pos hw] at h
      exact absurd h (by simp)
    · rw [if_neg hw] at h
      have := wiLoop_ok_length rest w [] cum t h
      simp only [List.length_nil, Nat.zero_add, List.length_cons] at this ⊢
      omega

/-- `partition_point` never points past the end of the table it searches. -/
theorem wSample_le (cum : List ℚ) (u : ℚ) : wSample cum u ≤ cum.length :=
  (List.takeWhile_sublist _).length_le

/-- Claim C9: when the weighted distribution constructs successfully and the weights
list is no longer than the items list, every sampled index is strictly in bounds for
the items list, so `items[dist.sample(..)]` in `choose_with_repetition` never goes
out of bounds: the call returns a printed result for every draw count and random
stream. -/
theorem choose_with_repetition_in_bounds (items : List String) (ws cum : List ℚ)
    (t : ℚ) (hok : weightedIndexNew ws = .ok (cum, t))
    (hlen : ws.length ≤ items.length) :
    (∀ u, wSample cum u < items.length)
    ∧ ∀ (amount : Nat) (count all : Bool) (us : Nat → ℚ) (order : List String),
        ∃ out, choose_with_repetition items ws amount count all us order = .ok out := by
  have hidx : ∀ u, wSample cum u < items.length := by
    intro u
    have h1 := wSample_le cum u
    have h2 := weightedIndexNew_ok_length ws cum t hok
    omega
  refine ⟨hidx, ?_⟩
  intro amount count all us order
  have hall : ∀ idxs : List Nat, (∀ i ∈ idxs, i < items.length) →
      ∃ sel, indexAll items idxs = some sel := by
    intro idxs
    induction idxs with
    | nil => exact fun _ => ⟨[], rfl⟩
    | cons i is ih =>
      intro hmem
      obtain ⟨sel, hsel⟩ := ih (fun j hj => hmem j (List.mem_cons_of_mem _ hj))
      have hi : i < items.length := hmem i (List.mem_cons_self _ _)
      exact ⟨items[i] :: sel, by simp [indexAll, List.getElem?_eq_getElem hi, hsel]⟩
  have hbound : ∀ i ∈ (List.range amount).map (fun k => wSample cum (us k)),
      i < items.length := by
    intro i hi
    simp only [List.mem_map] at hi
    obtain ⟨k, _, hk⟩ := hi
    exact hk ▸ hidx (us k)
  obtain ⟨sel, hsel⟩ := hall _ hbound
  exact ⟨print_selections sel count all amount order,
    by simp [choose_with_repetition, hok, hsel]⟩

/-- Witness for C9 over the weights `[1, 1]` and the items `a b`. -/
theorem choose_with_repetition_in_bounds_witness :
    weightedIndexNew [1, 1] = .ok ([1], 2)
    ∧ wSample [1] 0 < (["a", "b"] : List String).length
    ∧ ∃ out, choose_with_repetition ["a", "b"] [1, 1] 3 false true qz ["x"] = .ok out :=
  ⟨rfl,
   (choose_with_repetition_in_bounds ["a", "b"] [1, 1] [1] 2 rfl (by decide)).1 0,
   (choose_with_repetition_in_bounds ["a", "b"] [1, 1] [1] 2 rfl (by decide)).2
     3 false true qz ["x"]⟩

end Rnd
